import Mathlib

/-
Verification of the MiIni class (MUtilize repository, src/MiIni.h) against its
natural-language specification.  The model is a shallow embedding: C++
`std::string` values become lists of characters, the `std::map` member
`dataMap` becomes an association list kept in the map's sorted key order, and
the thrown exceptions become explicit error values.  All line references are
to src/MiIni.h.
-/

set_option linter.unusedVariables false
set_option linter.unnecessarySeqFocus false

namespace Ini

/-- Characters of a C++ `std::string`, modelled as an explicit character list. -/
abbrev Str := List Char

/-- Membership test for the string `" \t"` built at lines 164-166 and used by every trim. -/
def isSpaceTab (c : Char) : Bool := c = ' ' || c = '\t'

/-- Model of `ln.erase(0, ln.find_first_not_of(spaces))` (line 168): when every
character is a space or tab, `find_first_not_of` returns `npos` and the erase
removes the whole string, which is exactly `dropWhile`. -/
def trimLeading (s : Str) : Str := s.dropWhile isSpaceTab

/-- Model of `ln.erase(ln.find_last_not_of(spaces) + 1)` (line 169): when every
character is a space or tab, `find_last_not_of` returns `npos` and `npos + 1`
wraps to `0`, so the whole string is erased; in every case the call removes
exactly the trailing run of spaces and tabs. -/
def trimTrailing (s : Str) : Str := (s.reverse.dropWhile isSpaceTab).reverse

/-- Model of `std::basic_string::find_first_of` with a single search character,
returning the index of the first character satisfying `p` (`none` for `npos`). -/
def findIdxO (p : Char → Bool) : Str → Option Nat
  | [] => none
  | c :: t => if p c then some 0 else (findIdxO p t).map (· + 1)

/-- Model of lines 170-172:
`if ((commentPos = ln.find_first_of('#')) != String::npos) ln.erase(commentPos + 1);`.
`erase(commentPos + 1)` keeps indices `0 .. commentPos`, i.e. the `#` itself survives. -/
def stripComment (s : Str) : Str :=
  match findIdxO (fun c => c = '#') s with
  | some p => s.take (p + 1)
  | none => s

/-- Lexicographic order on `std::string` character sequences: the default
`std::less<String>` that orders the keys of the `std::map` member `dataMap`. -/
def strLt : Str → Str → Bool
  | [], [] => false
  | [], _ :: _ => true
  | _ :: _, [] => false
  | a :: as, b :: bs =>
    if a.toNat < b.toNat then true
    else if b.toNat < a.toNat then false
    else strLt as bs

/-- Lookup in the association-list model of `std::map`. -/
def mapFind (k : Str) : List (Str × α) → Option α
  | [] => none
  | (k', v') :: rest => if k = k' then some v' else mapFind k rest

/-- Insert-or-assign at the sorted position: the effect of `m[k] = v` on a
`std::map` whose entries are listed in key order. -/
def mapSet (k : Str) (v : α) : List (Str × α) → List (Str × α)
  | [] => [(k, v)]
  | (k', v') :: rest =>
    if strLt k k' then (k, v) :: (k', v') :: rest
    else if k = k' then (k, v) :: rest
    else (k', v') :: mapSet k v rest

/-- `m[k]` evaluated only for its side effect: `std::map::operator[]`
default-inserts an entry when the key is absent and leaves the map unchanged
otherwise (used at line 179, `dataMap[sect];`). -/
def mapEnsure (k : Str) (d : α) (m : List (Str × α)) : List (Str × α) :=
  match mapFind k m with
  | some _ => m
  | none => mapSet k d m

/-- Inner map of one section: key to value. -/
abbrev KVMap := List (Str × Str)

/-- Model of the member `std::map<String, std::map<String, String>> dataMap` (line 59). -/
abbrev DataMap := List (Str × KVMap)

/-- Model of `dataMap[sect][key] = val` (line 196, also the body of `setStr`, line 113):
the outer `operator[]` default-inserts the section, then the inner assignment stores the value. -/
def dataSet (sect key val : Str) (dm : DataMap) : DataMap :=
  mapSet sect (mapSet key val ((mapFind sect dm).getD [])) dm

/-- Model of the members of a `MiIni` object (lines 39-40 and 59). -/
structure MiIni where
  mFilename : Str
  mAutoSync : Bool
  dataMap : DataMap
  deriving DecidableEq, Repr

/-- Model of `setStr` (lines 112-114). -/
def setStr (dm : DataMap) (sect key val : Str) : DataMap :=
  dataSet sect key val dm

/-- Model of `getStr` (lines 98-109): `dataMap[sect]` default-inserts the
section; if the key is absent the default is inserted and returned, otherwise
the stored value is returned.  The function returns the result together with
the updated `dataMap`. -/
def getStr (dm : DataMap) (sect key dflt : Str) : Str × DataMap :=
  let dm1 := mapEnsure sect [] dm
  let keyvalmap := (mapFind sect dm1).getD []
  match mapFind key keyvalmap with
  | none => (dflt, mapSet sect (mapSet key dflt keyvalmap) dm1)
  | some v => (v, dm1)

/-- Model of the `FormatException` value thrown at lines 185-187. -/
structure FormatException where
  msg : Str
  line : Nat
  deriving DecidableEq, Repr

/-- Conversion helper: the characters of a Lean string literal. -/
def strOf (s : String) : Str := s.data

/-- The message `"Wrong ini file format at line " << line << "!"` (lines 185-187). -/
def fmtMsg (line : Nat) : Str :=
  strOf "Wrong ini file format at line " ++ (Nat.repr line).data ++ strOf "!"

/-- Classification of one physical input line after the trimming and comment
handling of lines 168-172, following the branch structure of lines 174-197. -/
inductive LineKind where
  | skip
  | header (name : Str)
  | pair (key val : Str)
  | bad
  deriving DecidableEq, Repr

/-- The loop body of `readMore` (lines 160-198) up to the point where the data
map is touched: trim (lines 168-169), keep the prefix up to and including a `#`
(lines 170-172), then classify.  A line beginning with `[` yields a section
name `ln.substr(1, ln.find_first_of(']') - 1)` trimmed on both sides
(lines 176-178); otherwise the line is split at the first `=` (lines 182-194)
and its absence is the format-error case (line 183). -/
def classifyLine (ln0 : Str) : LineKind :=
  let ln := stripComment (trimTrailing (trimLeading ln0))
  match ln with
  | [] => .skip
  | c :: cs =>
    if c = '[' then
      let raw := match findIdxO (fun x => x = ']') (c :: cs) with
        | some p => ((c :: cs).drop 1).take (p - 1)
        | none => (c :: cs).drop 1
      .header (trimTrailing (trimLeading raw))
    else
      match findIdxO (fun x => x = '=') (c :: cs) with
      | none => .bad
      | some eqpos =>
          .pair (trimTrailing ((c :: cs).take eqpos))
                (trimLeading ((c :: cs).drop (eqpos + 1)))

/-- Effect of one line on the current section and the data map: `none` is the
format-error case.  A header stores the trimmed name as current section and
default-inserts it (`dataMap[sect];`, line 179); a key/value line stores into
the current section (line 196). -/
def processLine (ln0 : Str) (sect : Str) (dm : DataMap) : Option (Str × DataMap) :=
  match classifyLine ln0 with
  | .skip => some (sect, dm)
  | .header n => some (n, mapEnsure n [] dm)
  | .pair k v => some (sect, dataSet sect k v dm)
  | .bad => none

/-- Whether a line takes the throwing branch of lines 183-189. -/
def lineBad (ln0 : Str) : Bool :=
  match classifyLine ln0 with
  | .bad => true
  | _ => false

/-- The `while (std::getline(is, ln))` loop of `readMore` (lines 160-199).
`line` is the 1-based number of the next line to be read (the counter is
incremented at the top of the loop, line 161).  The result carries the thrown
`FormatException` (if any), the current section, and the data map as left
behind by the loop; on a throw the map keeps everything stored so far. -/
def runLinesS (ign : Bool) : List Str → Str → DataMap → Nat → Option FormatException × Str × DataMap
  | [], sect, dm, _ => (none, sect, dm)
  | ln :: rest, sect, dm, line =>
    match processLine ln sect dm with
    | some sd => runLinesS ign rest sd.1 sd.2 (line + 1)
    | none =>
      if ign then runLinesS ign rest sect dm (line + 1)
      else (some ⟨fmtMsg line, line⟩, sect, dm)

/-- Model of `std::getline` applied until failure: splits the stream content at
newline characters.  A final segment without a terminating newline is still a
line; after a terminating newline at end of stream, `getline` fails without
producing a further (empty) line. -/
def getLinesAux (cur : Str) : Str → List Str
  | [] => [cur.reverse]
  | c :: cs =>
    if c = '\n' then
      cur.reverse :: (match cs with
        | [] => []
        | _ :: _ => getLinesAux [] cs)
    else getLinesAux (c :: cur) cs

/-- Lines delivered by repeated `std::getline` on the whole stream content. -/
def getLines : Str → List Str
  | [] => []
  | s => getLinesAux [] s

/-- Model of `readMore(is, ignoreErrors)` (lines 156-200): the local `sect` starts
as the default-constructed empty string (line 157) and `line` as 0 (line 159),
so the first line read is number 1. -/
def readMoreD (ign : Bool) (dm : DataMap) (input : Str) : Option FormatException × DataMap :=
  let r := runLinesS ign (getLines input) [] dm 1
  (r.1, r.2.2)

/-- Model of `read(is, ignoreErrors)` (lines 203-206): clear the map, then `readMore`. -/
def readIni (ign : Bool) (input : Str) : Option FormatException × DataMap :=
  readMoreD ign [] input

/-- One `key = value` line as emitted by `write` (line 215):
`os << keyval.first << " = " << keyval.second << std::endl`. -/
def renderPair (kv : Str × Str) : Str :=
  kv.1 ++ (' ' :: '=' :: ' ' :: kv.2) ++ ['\n']

/-- One section as emitted by `write` (lines 210-218): a `[name]` header line
for a non-empty name (lines 211-213), the key/value lines, then one empty line. -/
def renderSection (s : Str × KVMap) : Str :=
  (if s.1 = [] then [] else '[' :: (s.1 ++ [']', '\n'])) ++
    (s.2.map renderPair).flatten ++ ['\n']

/-- Model of `write(os)` (lines 209-219). -/
def writeIni (dm : DataMap) : Str :=
  (dm.map renderSection).flatten

/-- The characters of a `key = value` line before its newline. -/
def pairLine (kv : Str × Str) : Str :=
  kv.1 ++ (' ' :: '=' :: ' ' :: kv.2)

/-- The characters of a `[name]` header line before its newline. -/
def headerLine (name : Str) : Str :=
  '[' :: (name ++ [']'])

/-- The lines of one serialized section, in order, each without its newline. -/
def blockLines (s : Str × KVMap) : List Str :=
  (if s.1 = [] then [] else [headerLine s.1]) ++ s.2.map pairLine ++ [[]]

/-- Characters with no role in the ini syntax. -/
def plainChar (c : Char) : Bool :=
  !(c = '#' || c = '[' || c = ']' || c = '=' || c = '\n')

/-- The first character, if any, is not a space or tab. -/
def headOk (s : Str) : Bool :=
  match s with
  | [] => true
  | c :: _ => !isSpaceTab c

/-- A string that serializes and re-parses unchanged: none of the parser's
active characters occur in it, it carries no newline, and it has no leading or
trailing space or tab. -/
def cleanStr (s : Str) : Bool :=
  s.all plainChar && headOk s && headOk s.reverse

/-- Every section name, key and value of the map is clean. -/
def cleanDM (dm : DataMap) : Prop :=
  ∀ s ∈ dm, cleanStr s.1 = true ∧ ∀ kv ∈ s.2, cleanStr kv.1 = true ∧ cleanStr kv.2 = true

/-- Entries listed in strictly ascending key order, as a `std::map` holds them. -/
def mapOrdered (m : List (Str × α)) : Prop :=
  m.Pairwise (fun a b => strLt a.1 b.1 = true)

/-- A well-formed `dataMap` state: both map levels in ascending key order. -/
def dataMapWF (dm : DataMap) : Prop :=
  mapOrdered dm ∧ ∀ s ∈ dm, mapOrdered s.2

/-- A sequence of `setStr` insertions applied to an initially empty `MiIni`. -/
def applyInserts (ins : List (Str × Str × Str)) : DataMap :=
  ins.foldl (fun dm i => setStr dm i.1 i.2.1 i.2.2) []

/-- Exceptions thrown by the file-binding layer: the declared `FileError`
(lines 44-47) and a plain `std::runtime_error` (the type actually thrown at
line 249). -/
inductive CppExc where
  | fileError (msg : Str)
  | runtimeError (msg : Str)
  deriving DecidableEq, Repr

/-- The message built at lines 251-252 for a linked file that could not be
opened; character 39 is the apostrophe of the source text. -/
def cantOpenMsg (f : Str) : Str :=
  strOf "Can" ++ [Char.ofNat 39] ++ strOf "t open ini file \"" ++ f ++ strOf "\"!"

/-- The message at line 253 for the unlinked case. -/
def noLinkMsg : Str :=
  strOf "No linked file specified to be synced to this MinIni!"

/-- Model of `sync()` (lines 240-255).  The success of the `fstream` open call
is an oracle parameter `openOk`; opening an empty path always fails, so success
additionally requires a non-empty linked filename.  On failure the function
throws a plain `std::runtime_error` (line 249) whose message distinguishes the
two cases (lines 250-253); `sync` does not modify the object (it is `const`). -/
def sync (ini : MiIni) (openOk : Bool) : Option CppExc :=
  if openOk && ini.mFilename.length != 0 then none
  else some (.runtimeError (if ini.mFilename.length != 0 then cantOpenMsg ini.mFilename else noLinkMsg))

/-- The member state after the three clearing statements of lines 262-264. -/
def clearedIni : MiIni := ⟨[], false, []⟩

/-- Model of `close()` (lines 258-265): when a filename is linked and auto-sync
is on, `sync()` runs first; if it throws, the exception propagates at once and
the three clearing statements (lines 262-264) never execute, leaving the
members unchanged.  Otherwise the map is cleared, the filename reset to empty
and auto-sync reset to false. -/
def close (ini : MiIni) (openOk : Bool) : Option CppExc × MiIni :=
  if ini.mFilename.length != 0 && ini.mAutoSync then
    match sync ini openOk with
    | some e => (some e, ini)
    | none => (none, clearedIni)
  else (none, clearedIni)

instance (m : List (Str × α)) : Decidable (mapOrdered m) := by
  unfold mapOrdered
  infer_instance

instance (dm : DataMap) : Decidable (cleanDM dm) := by
  unfold cleanDM
  infer_instance

theorem charEq_of_toNat {a b : Char} (h : a.toNat = b.toNat) : a = b := by
  apply Char.eq_of_val_eq
  apply UInt32.eq_of_toBitVec_eq
  apply BitVec.eq_of_toNat_eq
  exact h

theorem strLt_cons (c d : Char) (t u : Str) :
    strLt (c :: t) (d :: u) =
      if c.toNat < d.toNat then true
      else if d.toNat < c.toNat then false
      else strLt t u := rfl

theorem strLt_nil_cons (c : Char) (t : Str) : strLt [] (c :: t) = true := rfl

theorem strLt_nil_right : ∀ a : Str, strLt a [] = false := by
  intro a
  cases a <;> rfl

theorem strLt_irrefl : ∀ a : Str, strLt a a = false := by
  intro a
  induction a with
  | nil => rfl
  | cons c t ih => simp [strLt_cons, ih]

theorem strLt_ne {a b : Str} (h : strLt a b = true) : a ≠ b := by
  intro he
  subst he
  rw [strLt_irrefl] at h
  cases h

theorem strLt_asymm : ∀ (a b : Str), strLt a b = true → strLt b a = false := by
  intro a
  induction a with
  | nil =>
    intro b h
    cases b with
    | nil => simp [strLt] at h
    | cons d u => rfl
  | cons c t ih =>
    intro b h
    cases b with
    | nil => exact absurd h (by simp [strLt_nil_right])
    | cons d u =>
      rw [strLt_cons] at h ⊢
      by_cases h1 : c.toNat < d.toNat
      · simp [show ¬ d.toNat < c.toNat by omega, h1]
      · by_cases h2 : d.toNat < c.toNat
        · simp [h1, h2] at h
        · simp [h1, h2] at h ⊢
          exact ih u h

theorem strLt_trans : ∀ (a b c : Str),
    strLt a b = true → strLt b c = true → strLt a c = true := by
  intro a
  induction a with
  | nil =>
    intro b c hab hbc
    cases b with
    | nil => exact absurd hab (by simp [strLt])
    | cons d u =>
      cases c with
      | nil => exact absurd hbc (by simp [strLt_nil_right])
      | cons e w => rfl
  | cons x xs ih =>
    intro b c hab hbc
    cases b with
    | nil => exact absurd hab (by simp [strLt_nil_right])
    | cons y ys =>
      cases c with
      | nil => exact absurd hbc (by simp [strLt_nil_right])
      | cons z zs =>
        rw [strLt_cons] at hab hbc ⊢
        by_cases h1 : x.toNat < y.toNat
        · by_cases h2 : y.toNat < z.toNat
          · simp [show x.toNat < z.toNat by omega]
          · by_cases h3 : z.toNat < y.toNat
            · simp [h2, h3] at hbc
            · simp [show x.toNat < z.toNat by omega]
        · by_cases h4 : y.toNat < x.toNat
          · simp [h1, h4] at hab
          · by_cases h2 : y.toNat < z.toNat
            · simp [show x.toNat < z.toNat by omega]
            · by_cases h3 : z.toNat < y.toNat
              · simp [h2, h3] at hbc
              · simp [h1, h4] at hab
                simp [h2, h3] at hbc
                simp [show ¬ x.toNat < z.toNat by omega, show ¬ z.toNat < x.toNat by omega]
                exact ih ys zs hab hbc

theorem strLt_total : ∀ (a b : Str), a ≠ b → strLt a b = true ∨ strLt b a = true := by
  intro a
  induction a with
  | nil =>
    intro b hne
    cases b with
    | nil => exact absurd rfl hne
    | cons d u => exact Or.inl rfl
  | cons x xs ih =>
    intro b hne
    cases b with
    | nil => exact Or.inr rfl
    | cons y ys =>
      by_cases h1 : x.toNat < y.toNat
      · left
        rw [strLt_cons]
        simp [h1]
      · by_cases h2 : y.toNat < x.toNat
        · right
          rw [strLt_cons]
          simp [h2]
        · have hxy : x = y := charEq_of_toNat (by omega)
          subst hxy
          have hne' : xs ≠ ys := by
            intro he
            exact hne (by rw [he])
          rcases ih ys hne' with h | h
          · left
            rw [strLt_cons]
            simp [h]
          · right
            rw [strLt_cons]
            simp [h]

theorem mapFind_mapSet_self (k : Str) (v : α) :
    ∀ m : List (Str × α), mapFind k (mapSet k v m) = some v := by
  intro m
  induction m with
  | nil => simp [mapSet, mapFind]
  | cons p rest ih =>
    obtain ⟨k', v'⟩ := p
    by_cases h1 : strLt k k' = true
    · simp [mapSet, h1, mapFind]
    · by_cases h2 : k = k'
      · subst h2
        simp [mapSet, strLt_irrefl, mapFind]
      · simp [mapSet, h1, h2, mapFind, ih]

theorem mapFind_mem : ∀ {m : List (Str × α)} {k : Str} {s : α},
    mapFind k m = some s → (k, s) ∈ m := by
  intro m
  induction m with
  | nil => intro k s h; cases h
  | cons p rest ih =>
    intro k s h
    obtain ⟨k', v'⟩ := p
    by_cases he : k = k'
    · subst he
      simp [mapFind] at h
      subst h
      exact List.mem_cons_self _ _
    · simp [mapFind, he] at h
      exact List.mem_cons_of_mem _ (ih h)

theorem mapEnsure_found {k : Str} {m : List (Str × α)} {s : α}
    (h : mapFind k m = some s) (d : α) : mapEnsure k d m = m := by
  simp [mapEnsure, h]

theorem mapEnsure_none {k : Str} {m : List (Str × α)}
    (h : mapFind k m = none) (d : α) : mapEnsure k d m = mapSet k d m := by
  simp [mapEnsure, h]

theorem mapSet_mem {k : Str} {v : α} :
    ∀ {m : List (Str × α)} {x}, x ∈ mapSet k v m → x = (k, v) ∨ x ∈ m := by
  intro m
  induction m with
  | nil =>
    intro x h
    simp [mapSet] at h
    exact Or.inl h
  | cons p rest ih =>
    intro x h
    obtain ⟨k', v'⟩ := p
    by_cases h1 : strLt k k' = true
    · simp [mapSet, h1] at h
      rcases h with h | h | h
      · exact Or.inl (by simp [h])
      · exact Or.inr (by simp [h])
      · exact Or.inr (List.mem_cons_of_mem _ h)
    · by_cases h2 : k = k'
      · subst h2
        simp [mapSet, strLt_irrefl] at h
        rcases h with h | h
        · exact Or.inl (by simp [h])
        · exact Or.inr (List.mem_cons_of_mem _ h)
      · simp [mapSet, h1, h2] at h
        rcases h with h | h
        · exact Or.inr (by simp [h])
        · rcases ih h with h' | h'
          · exact Or.inl h'
          · exact Or.inr (List.mem_cons_of_mem _ h')

theorem mapSet_append_of_all_lt {k : Str} {v : α} :
    ∀ (m : List (Str × α)), (∀ a ∈ m, strLt a.1 k = true) →
      mapSet k v m = m ++ [(k, v)] := by
  intro m
  induction m with
  | nil => intro _; rfl
  | cons p rest ih =>
    intro h
    obtain ⟨k', v'⟩ := p
    have hp : strLt k' k = true := h (k', v') (List.mem_cons_self _ _)
    have h1 : strLt k k' = false := strLt_asymm _ _ hp
    have h2 : k ≠ k' := fun he => (strLt_ne hp) he.symm
    simp [mapSet, h1, h2]
    exact ih (fun a ha => h a (List.mem_cons_of_mem _ ha))

theorem mapFind_none_of_all_lt {k : Str} :
    ∀ m : List (Str × α), (∀ a ∈ m, strLt a.1 k = true) → mapFind k m = none := by
  intro m
  induction m with
  | nil => intro _; rfl
  | cons p rest ih =>
    intro h
    obtain ⟨k', v'⟩ := p
    have hp : strLt k' k = true := h (k', v') (List.mem_cons_self _ _)
    have h2 : k ≠ k' := fun he => (strLt_ne hp) he.symm
    simp [mapFind, h2]
    exact ih (fun a ha => h a (List.mem_cons_of_mem _ ha))

theorem mapSet_ordered {k : Str} {v : α} :
    ∀ {m : List (Str × α)}, mapOrdered m → mapOrdered (mapSet k v m) := by
  intro m
  induction m with
  | nil => intro _; simp [mapSet, mapOrdered]
  | cons p rest ih =>
    intro h
    obtain ⟨k', v'⟩ := p
    rw [mapOrdered, List.pairwise_cons] at h
    obtain ⟨h1, h2⟩ := h
    by_cases hlt : strLt k k' = true
    · have he : mapSet k v ((k', v') :: rest) = (k, v) :: (k', v') :: rest := by
        simp [mapSet, hlt]
      rw [mapOrdered, he]
      constructor
      · intro x hx
        rcases List.mem_cons.mp hx with hx | hx
        · subst hx
          exact hlt
        · exact strLt_trans _ _ _ hlt (h1 x hx)
      · exact List.Pairwise.cons h1 h2
    · by_cases heq : k = k'
      · subst heq
        have he : mapSet k v ((k, v') :: rest) = (k, v) :: rest := by
          simp [mapSet, strLt_irrefl]
        rw [mapOrdered, he]
        exact List.Pairwise.cons h1 h2
      · have hgt : strLt k' k = true := by
          rcases strLt_total k k' heq with h' | h'
          · exact absurd h' (by simp [hlt])
          · exact h'
        have he : mapSet k v ((k', v') :: rest) = (k', v') :: mapSet k v rest := by
          simp [mapSet, hlt, heq]
        rw [mapOrdered, he]
        constructor
        · intro x hx
          rcases mapSet_mem hx with hx | hx
          · subst hx
            exact hgt
          · exact h1 x hx
        · exact ih h2

theorem dataSet_WF {sect key val : Str} {dm : DataMap}
    (h : dataMapWF dm) : dataMapWF (dataSet sect key val dm) := by
  obtain ⟨ho, hi⟩ := h
  constructor
  · exact mapSet_ordered ho
  · intro s hs
    rcases mapSet_mem hs with hx | hx
    · subst hx
      apply mapSet_ordered
      cases hfind : mapFind sect dm with
      | none => simp [mapOrdered]
      | some sub => simpa using hi (sect, sub) (mapFind_mem hfind)
    · exact hi s hx

theorem trimLeading_eq_self {s : Str} (h : headOk s = true) : trimLeading s = s := by
  cases s with
  | nil => rfl
  | cons c t =>
    simp [headOk] at h
    simp [trimLeading, List.dropWhile_cons, h]

theorem trimTrailing_eq_self {s : Str} (h : headOk s.reverse = true) : trimTrailing s = s := by
  have h2 : trimLeading s.reverse = s.reverse := trimLeading_eq_self h
  unfold trimLeading at h2
  unfold trimTrailing
  rw [h2, List.reverse_reverse]

theorem trimLeading_cons_sp {c : Char} (hc : isSpaceTab c = true) (v : Str) :
    trimLeading (c :: v) = trimLeading v := by
  simp [trimLeading, List.dropWhile_cons, hc]

theorem trimTrailing_append_sp {k : Str} {c : Char} (hc : isSpaceTab c = true)
    (h : headOk k.reverse = true) : trimTrailing (k ++ [c]) = k := by
  unfold trimTrailing
  rw [List.reverse_append]
  simp only [List.reverse_cons, List.reverse_nil, List.nil_append, List.singleton_append,
    List.dropWhile_cons, hc, if_true]
  have h2 : trimLeading k.reverse = k.reverse := trimLeading_eq_self h
  unfold trimLeading at h2
  rw [h2, List.reverse_reverse]

theorem headOk_append {k rest : Str} (hne : k ≠ []) (h : headOk k = true) :
    headOk (k ++ rest) = true := by
  cases k with
  | nil => exact absurd rfl hne
  | cons c t => simpa [headOk] using h

theorem findIdxO_none_of_all {p : Char → Bool} :
    ∀ {s : Str}, (∀ c ∈ s, p c = false) → findIdxO p s = none := by
  intro s
  induction s with
  | nil => intro _; rfl
  | cons c t ih =>
    intro h
    have hc := h c (List.mem_cons_self _ _)
    have ht := ih fun x hx => h x (List.mem_cons_of_mem _ hx)
    simp [findIdxO, hc, ht]

theorem findIdxO_append_of_none (p : Char → Bool) :
    ∀ (a b : Str), (∀ c ∈ a, p c = false) →
      findIdxO p (a ++ b) = (findIdxO p b).map (· + a.length) := by
  intro a
  induction a with
  | nil =>
    intro b _
    cases o : findIdxO p b <;> simp [o]
  | cons c t ih =>
    intro b h
    have hc := h c (List.mem_cons_self _ _)
    have ht := ih b fun x hx => h x (List.mem_cons_of_mem _ hx)
    rw [List.cons_append]
    simp only [findIdxO, hc, Bool.false_eq_true, if_false, ht]
    cases o : findIdxO p b <;> simp [o] <;> omega

theorem stripComment_of_no_hash {s : Str} (h : ∀ c ∈ s, c ≠ '#') :
    stripComment s = s := by
  unfold stripComment
  rw [findIdxO_none_of_all]
  intro c hc
  simp [h c hc]

theorem take_len_plus : ∀ (a b : List α) (n : Nat), (a ++ b).take (a.length + n) = a ++ b.take n := by
  intro a
  induction a with
  | nil => simp
  | cons c t ih =>
    intro b n
    rw [List.cons_append, show (c :: t).length + n = (t.length + n) + 1 by simp; omega,
      List.take_succ_cons, ih]
    rfl

theorem drop_len_plus : ∀ (a b : List α) (n : Nat), (a ++ b).drop (a.length + n) = b.drop n := by
  intro a
  induction a with
  | nil => simp
  | cons c t ih =>
    intro b n
    rw [List.cons_append, show (c :: t).length + n = (t.length + n) + 1 by simp; omega,
      List.drop_succ_cons, ih]

theorem cleanStr_parts {s : Str} (h : cleanStr s = true) :
    (∀ c ∈ s, plainChar c = true) ∧ headOk s = true ∧ headOk s.reverse = true := by
  unfold cleanStr at h
  rw [Bool.and_eq_true, Bool.and_eq_true] at h
  refine ⟨fun c hc => ?_, h.1.2, h.2⟩
  have := h.1.1
  rw [List.all_eq_true] at this
  exact this c hc

theorem plainChar_spec {c : Char} (h : plainChar c = true) :
    c ≠ '#' ∧ c ≠ '[' ∧ c ≠ ']' ∧ c ≠ '=' ∧ c ≠ '\n' := by
  unfold plainChar at h
  simp at h
  exact ⟨h.1.1.1.1, h.1.1.1.2, h.1.1.2, h.1.2, h.2⟩

theorem classifyLine_eq (ln0 : Str) :
    classifyLine ln0 =
      (match stripComment (trimTrailing (trimLeading ln0)) with
      | [] => .skip
      | c :: cs =>
        if c = '[' then
          let raw := match findIdxO (fun x => x = ']') (c :: cs) with
            | some p => ((c :: cs).drop 1).take (p - 1)
            | none => (c :: cs).drop 1
          .header (trimTrailing (trimLeading raw))
        else
          match findIdxO (fun x => x = '=') (c :: cs) with
          | none => .bad
          | some eqpos =>
              .pair (trimTrailing ((c :: cs).take eqpos))
                    (trimLeading ((c :: cs).drop (eqpos + 1)))) := rfl

theorem classifyLine_blank : classifyLine [] = .skip := rfl

theorem classifyLine_pair {k v : Str} (hk : cleanStr k = true) (hv : cleanStr v = true) :
    classifyLine (pairLine (k, v)) = .pair k v := by
  obtain ⟨kplain, khead, klast⟩ := cleanStr_parts hk
  obtain ⟨vplain, vhead, vlast⟩ := cleanStr_parts hv
  have knoeq : ∀ c ∈ k, (fun x => decide (x = '=')) c = false := by
    intro c hc
    exact decide_eq_false (plainChar_spec (kplain c hc)).2.2.2.1
  have nohash : ∀ c ∈ pairLine (k, v), c ≠ '#' := by
    intro c hc
    unfold pairLine at hc
    rcases List.mem_append.mp hc with hc | hc
    · exact (plainChar_spec (kplain c hc)).1
    · rcases hc with _ | ⟨_, hc⟩
      · decide
      · rcases hc with _ | ⟨_, hc⟩
        · decide
        · rcases hc with _ | ⟨_, hc⟩
          · decide
          · exact (plainChar_spec (vplain c hc)).1
  cases hkc : k with
  | nil =>
    cases hvc : v with
    | nil => decide
    | cons vc vt =>
      subst hkc hvc
      have h1 : trimLeading (pairLine ([], vc :: vt)) = '=' :: ' ' :: vc :: vt := by
        unfold pairLine
        rw [List.nil_append, trimLeading_cons_sp (by decide)]
        exact trimLeading_eq_self rfl
      have h2 : trimTrailing ('=' :: ' ' :: vc :: vt) = '=' :: ' ' :: vc :: vt := by
        apply trimTrailing_eq_self
        rw [show ('=' :: ' ' :: vc :: vt).reverse = (vc :: vt).reverse ++ [' ', '='] by simp]
        exact headOk_append (by simp) vlast
      have h3 : stripComment ('=' :: ' ' :: vc :: vt) = '=' :: ' ' :: vc :: vt := by
        apply stripComment_of_no_hash
        intro c hc
        apply nohash
        show c ∈ pairLine ([], vc :: vt)
        unfold pairLine
        rw [List.nil_append]
        exact List.mem_cons_of_mem _ hc
      rw [classifyLine_eq, h1, h2, h3]
      simp only []
      rw [if_neg (by decide)]
      have h4 : findIdxO (fun x => x = '=') ('=' :: ' ' :: vc :: vt) = some 0 := by
        simp [findIdxO]
      rw [h4]
      simp only [List.take, List.drop]
      rw [trimLeading_cons_sp (by decide), trimLeading_eq_self vhead]
      rfl
  | cons kc kt =>
    subst hkc
    have hkne : (kc :: kt) ≠ ([] : Str) := by simp
    have hknb : kc ≠ '[' := (plainChar_spec (kplain kc (List.mem_cons_self _ _))).2.1
    have hkc0 : isSpaceTab kc = false := by simpa [headOk] using khead
    cases hvc : v with
    | nil =>
      subst hvc
      have hform : pairLine (kc :: kt, []) = kc :: (kt ++ [' ', '=', ' ']) := by
        unfold pairLine
        simp
      have h1 : trimLeading (kc :: (kt ++ [' ', '=', ' '])) = kc :: (kt ++ [' ', '=', ' ']) :=
        trimLeading_eq_self (by simp [headOk, hkc0])
      have h2 : trimTrailing (kc :: (kt ++ [' ', '=', ' '])) = kc :: (kt ++ [' ', '=']) := by
        rw [show kc :: (kt ++ [' ', '=', ' ']) = (kc :: (kt ++ [' ', '='])) ++ [' '] by simp]
        apply trimTrailing_append_sp (by decide)
        rw [show (kc :: (kt ++ [' ', '='])).reverse = '=' :: (' ' :: (kt.reverse ++ [kc])) by simp]
        rfl
      have h3 : stripComment (kc :: (kt ++ [' ', '='])) = kc :: (kt ++ [' ', '=']) := by
        apply stripComment_of_no_hash
        intro c hc
        rw [show kc :: (kt ++ [' ', '=']) = (kc :: kt) ++ [' ', '='] by simp] at hc
        rcases List.mem_append.mp hc with hc | hc
        · exact (plainChar_spec (kplain c hc)).1
        · rcases hc with _ | ⟨_, hc⟩
          · decide
          · rcases hc with _ | ⟨_, hc⟩
            · decide
            · cases hc
      have h4 : findIdxO (fun x => x = '=') (kc :: (kt ++ [' ', '='])) =
          some ((kc :: kt).length + 1) := by
        rw [show kc :: (kt ++ [' ', '=']) = (kc :: kt) ++ [' ', '='] by simp,
          findIdxO_append_of_none _ _ _ knoeq]
        rw [show findIdxO (fun x => x = '=') [' ', '='] = some 1 from rfl]
        simp [Option.map]
        omega
      rw [classifyLine_eq, hform, h1, h2, h3]
      simp only []
      rw [if_neg hknb, h4]
      simp only []
      have h5 : (kc :: (kt ++ [' ', '='])).take ((kc :: kt).length + 1) =
          (kc :: kt) ++ [' '] := by
        rw [show kc :: (kt ++ [' ', '=']) = (kc :: kt) ++ [' ', '='] by simp, take_len_plus]
        rfl
      have h6 : (kc :: (kt ++ [' ', '='])).drop ((kc :: kt).length + 1 + 1) = [] := by
        rw [show (kc :: kt).length + 1 + 1 = (kc :: kt).length + 2 by omega,
          show kc :: (kt ++ [' ', '=']) = (kc :: kt) ++ [' ', '='] by simp,
          drop_len_plus]
        rfl
      rw [h5, h6, trimTrailing_append_sp (by decide) klast]
      rfl
    | cons vc vt =>
      subst hvc
      have h1 : trimLeading (pairLine (kc :: kt, vc :: vt)) = pairLine (kc :: kt, vc :: vt) :=
        trimLeading_eq_self (headOk_append hkne khead)
      have h2 : trimTrailing (pairLine (kc :: kt, vc :: vt)) = pairLine (kc :: kt, vc :: vt) := by
        apply trimTrailing_eq_self
        rw [show (pairLine (kc :: kt, vc :: vt)).reverse =
          (vc :: vt).reverse ++ ([' ', '=', ' '] ++ (kc :: kt).reverse) from by unfold pairLine; simp]
        exact headOk_append (by simp) vlast
      have h3 : stripComment (pairLine (kc :: kt, vc :: vt)) = pairLine (kc :: kt, vc :: vt) :=
        stripComment_of_no_hash nohash
      have h4 : findIdxO (fun x => x = '=') (pairLine (kc :: kt, vc :: vt)) =
          some (1 + (kc :: kt).length) := by
        unfold pairLine
        rw [findIdxO_append_of_none _ _ _ knoeq]
        rfl
      have hform : pairLine (kc :: kt, vc :: vt) =
          kc :: (kt ++ (' ' :: '=' :: ' ' :: vc :: vt)) := by
        unfold pairLine
        simp
      rw [classifyLine_eq]
      rw [hform] at h1 h2 h3 h4
      rw [show trimLeading (pairLine (kc :: kt, vc :: vt)) =
        trimLeading (kc :: (kt ++ (' ' :: '=' :: ' ' :: vc :: vt))) from by rw [hform]]
      rw [h1, h2, h3]
      simp only []
      rw [if_neg hknb, h4]
      simp only []
      have h5 : (kc :: (kt ++ (' ' :: '=' :: ' ' :: vc :: vt))).take (1 + (kc :: kt).length) =
          (kc :: kt) ++ [' '] := by
        rw [show (1 + (kc :: kt).length) = (kc :: kt).length + 1 by omega,
          show kc :: (kt ++ (' ' :: '=' :: ' ' :: vc :: vt)) =
            (kc :: kt) ++ (' ' :: '=' :: ' ' :: vc :: vt) from by simp,
          take_len_plus]
        rfl
      have h6 : (kc :: (kt ++ (' ' :: '=' :: ' ' :: vc :: vt))).drop (1 + (kc :: kt).length + 1) =
          ' ' :: vc :: vt := by
        rw [show (1 + (kc :: kt).length + 1) = (kc :: kt).length + 2 by omega,
          show kc :: (kt ++ (' ' :: '=' :: ' ' :: vc :: vt)) =
            (kc :: kt) ++ (' ' :: '=' :: ' ' :: vc :: vt) from by simp,
          drop_len_plus]
        rfl
      rw [h5, h6, trimTrailing_append_sp (by decide) klast,
        trimLeading_cons_sp (by decide), trimLeading_eq_self vhead]

theorem classifyLine_header {name : Str} (hn : cleanStr name = true) :
    classifyLine (headerLine name) = .header name := by
  obtain ⟨nplain, nhead, nlast⟩ := cleanStr_parts hn
  have h1 : trimLeading (headerLine name) = headerLine name :=
    trimLeading_eq_self rfl
  have h2 : trimTrailing (headerLine name) = headerLine name := by
    apply trimTrailing_eq_self
    rw [show (headerLine name).reverse = ']' :: (name.reverse ++ ['[']) from by
      unfold headerLine; simp]
    rfl
  have h3 : stripComment (headerLine name) = headerLine name := by
    apply stripComment_of_no_hash
    intro c hc
    unfold headerLine at hc
    rcases hc with _ | ⟨_, hc⟩
    · decide
    · rcases List.mem_append.mp hc with hc | hc
      · exact (plainChar_spec (nplain c hc)).1
      · rcases hc with _ | ⟨_, hc⟩
        · decide
        · cases hc
  have h4 : findIdxO (fun x => x = ']') (headerLine name) = some (0 + name.length + 1) := by
    unfold headerLine
    have : findIdxO (fun x => x = ']') (name ++ [']']) = some (0 + name.length) := by
      rw [findIdxO_append_of_none]
      · rfl
      · intro c hc
        exact decide_eq_false (plainChar_spec (nplain c hc)).2.2.1
    simp [findIdxO, this]
  rw [classifyLine_eq]
  rw [show headerLine name = '[' :: (name ++ [']']) from rfl] at h1 h2 h3 h4 ⊢
  rw [h1, h2, h3]
  simp only [if_true]
  rw [h4]
  simp only []
  have h5 : (('[' :: (name ++ [']'])).drop 1).take (0 + name.length + 1 - 1) = name := by
    rw [show (0 + name.length + 1 - 1) = name.length by omega]
    simp only [List.drop_succ_cons, List.drop_zero]
    rw [show name.length = name.length + 0 by omega, take_len_plus]
    simp
  rw [h5, trimLeading_eq_self nhead, trimTrailing_eq_self nlast]

theorem getLinesAux_encode (rest : Str) :
    ∀ (l : Str) (a : Str), (∀ c ∈ l, c ≠ '\n') →
      getLinesAux a (l ++ '\n' :: rest) = (a.reverse ++ l) :: getLines rest := by
  intro l
  induction l with
  | nil =>
    intro a _
    cases rest with
    | nil => simp [getLinesAux, getLines]
    | cons c cs => simp [getLinesAux, getLines]
  | cons c t ih =>
    intro a h
    have hc : c ≠ '\n' := h c (List.mem_cons_self _ _)
    rw [List.cons_append]
    rw [show getLinesAux a (c :: (t ++ '\n' :: rest)) =
      getLinesAux (c :: a) (t ++ '\n' :: rest) from by simp [getLinesAux, hc]]
    rw [ih (c :: a) (fun x hx => h x (List.mem_cons_of_mem _ hx))]
    simp

theorem getLines_encode_cons (l X : Str) (h : ∀ c ∈ l, c ≠ '\n') :
    getLines (l ++ '\n' :: X) = l :: getLines X := by
  cases l with
  | nil =>
    rw [List.nil_append]
    rw [show getLines ('\n' :: X) = getLinesAux [] ('\n' :: X) from rfl]
    have := getLinesAux_encode X [] [] (by intro c hc; cases hc)
    simpa using this
  | cons c t =>
    rw [List.cons_append]
    rw [show getLines (c :: (t ++ '\n' :: X)) = getLinesAux [] (c :: (t ++ '\n' :: X)) from rfl]
    have := getLinesAux_encode X (c :: t) [] h
    rw [List.cons_append] at this
    simpa using this

theorem getLines_encode : ∀ (lns : List Str), (∀ l ∈ lns, ∀ c ∈ l, c ≠ '\n') →
    getLines ((lns.map (fun l => l ++ ['\n'])).flatten) = lns := by
  intro lns
  induction lns with
  | nil => intro _; rfl
  | cons l rest ih =>
    intro h
    rw [List.map_cons, List.flatten_cons]
    rw [show (l ++ ['\n']) ++ (rest.map (fun l => l ++ ['\n'])).flatten =
      l ++ '\n' :: (rest.map (fun l => l ++ ['\n'])).flatten from by simp]
    rw [getLines_encode_cons _ _ (h l (List.mem_cons_self _ _))]
    rw [ih fun x hx => h x (List.mem_cons_of_mem _ hx)]

theorem renderSection_enc (s : Str × KVMap) :
    renderSection s = ((blockLines s).map (fun l => l ++ ['\n'])).flatten := by
  obtain ⟨name, pairs⟩ := s
  unfold renderSection blockLines headerLine
  by_cases h : name = [] <;>
    simp [h, List.map_map] <;>
    (rw [show ((fun l : Str => l ++ ['\n']) ∘ pairLine) = renderPair from by
      funext kv; unfold renderPair pairLine; simp [Function.comp]])

theorem writeIni_enc : ∀ dm : DataMap,
    writeIni dm = (((dm.map blockLines).flatten).map (fun l => l ++ ['\n'])).flatten := by
  intro dm
  induction dm with
  | nil => rfl
  | cons s rest ih =>
    rw [show writeIni (s :: rest) = renderSection s ++ writeIni rest from by unfold writeIni; simp]
    rw [List.map_cons, List.flatten_cons, List.map_append, List.flatten_append, ih,
      renderSection_enc]

theorem getLines_writeIni {dm : DataMap} (h : cleanDM dm) :
    getLines (writeIni dm) = (dm.map blockLines).flatten := by
  rw [writeIni_enc]
  apply getLines_encode
  intro l hl c hc
  rw [List.mem_flatten] at hl
  obtain ⟨bl, hbl, hlbl⟩ := hl
  rw [List.mem_map] at hbl
  obtain ⟨s, hs, hbl'⟩ := hbl
  subst hbl'
  obtain ⟨hname, hkv⟩ := h s hs
  unfold blockLines at hlbl
  rcases List.mem_append.mp hlbl with h' | h'
  · rcases List.mem_append.mp h' with h' | h'
    · by_cases hn : s.1 = []
      · simp [hn] at h'
      · simp [hn] at h'
        subst h'
        unfold headerLine at hc
        rcases hc with _ | ⟨_, hc⟩
        · decide
        · rcases List.mem_append.mp hc with hc | hc
          · exact (plainChar_spec ((cleanStr_parts hname).1 c hc)).2.2.2.2
          · rcases hc with _ | ⟨_, hc⟩
            · decide
            · cases hc
    · rw [List.mem_map] at h'
      obtain ⟨kv, hkvmem, h''⟩ := h'
      subst h''
      obtain ⟨hkc, hvc⟩ := hkv kv hkvmem
      unfold pairLine at hc
      rcases List.mem_append.mp hc with hc | hc
      · exact (plainChar_spec ((cleanStr_parts hkc).1 c hc)).2.2.2.2
      · rcases hc with _ | ⟨_, hc⟩
        · decide
        · rcases hc with _ | ⟨_, hc⟩
          · decide
          · rcases hc with _ | ⟨_, hc⟩
            · decide
            · exact (plainChar_spec ((cleanStr_parts hvc).1 c hc)).2.2.2.2
  · rcases h' with _ | ⟨_, h'⟩
    · cases hc
    · cases h'

theorem runLinesS_cons (ign : Bool) (ln : Str) (rest : List Str) (sect : Str)
    (dm : DataMap) (line : Nat) :
    runLinesS ign (ln :: rest) sect dm line =
      match processLine ln sect dm with
      | some sd => runLinesS ign rest sd.1 sd.2 (line + 1)
      | none =>
        if ign then runLinesS ign rest sect dm (line + 1)
        else (some ⟨fmtMsg line, line⟩, sect, dm) := rfl

theorem runLinesS_append_ok (ign : Bool) : ∀ (a b : List Str) (sect : Str) (dm : DataMap)
    (line : Nat) (s' : Str) (d' : DataMap),
    runLinesS ign a sect dm line = (none, s', d') →
    runLinesS ign (a ++ b) sect dm line = runLinesS ign b s' d' (line + a.length) := by
  intro a
  induction a with
  | nil =>
    intro b sect dm line s' d' h
    rw [show runLinesS ign [] sect dm line = (none, sect, dm) from rfl] at h
    obtain ⟨h1, h2⟩ := Prod.mk.injEq _ _ _ _ ▸ h
    injection h with h1 h2
    injection h2 with h2 h3
    subst h2 h3
    simp
  | cons ln rest ih =>
    intro b sect dm line s' d' h
    rw [List.cons_append, runLinesS_cons] at *
    cases hp : processLine ln sect dm with
    | some sd =>
      rw [hp] at h
      simp only [] at h
      simp only []
      rw [ih b sd.1 sd.2 (line + 1) s' d' h]
      rw [show line + (ln :: rest).length = line + 1 + rest.length from by simp; omega]
    | none =>
      rw [hp] at h
      simp only [] at h
      simp only []
      cases ign with
      | true =>
        rw [if_pos rfl] at h
        rw [if_pos rfl]
        rw [ih b sect dm (line + 1) s' d' h]
        rw [show line + (ln :: rest).length = line + 1 + rest.length from by simp; omega]
      | false =>
        rw [if_neg (by simp)] at h
        cases h

theorem processLine_blank (sect : Str) (dm : DataMap) :
    processLine [] sect dm = some (sect, dm) := rfl

theorem processLine_header {name : Str} (hn : cleanStr name = true) (sect : Str) (dm : DataMap) :
    processLine (headerLine name) sect dm = some (name, mapEnsure name [] dm) := by
  unfold processLine
  rw [classifyLine_header hn]

theorem processLine_pair {k v : Str} (hk : cleanStr k = true) (hv : cleanStr v = true)
    (sect : Str) (dm : DataMap) :
    processLine (pairLine (k, v)) sect dm = some (sect, dataSet sect k v dm) := by
  unfold processLine
  rw [classifyLine_pair hk hv]

theorem runLinesS_pairs (sect : Str) (ign : Bool) : ∀ (pairs : KVMap) (dm : DataMap) (line : Nat),
    (∀ p ∈ pairs, cleanStr p.1 = true ∧ cleanStr p.2 = true) →
    runLinesS ign (pairs.map pairLine) sect dm line =
      (none, sect, pairs.foldl (fun d kv => dataSet sect kv.1 kv.2 d) dm) := by
  intro pairs
  induction pairs with
  | nil => intro dm line _; rfl
  | cons p rest ih =>
    intro dm line h
    obtain ⟨k, v⟩ := p
    obtain ⟨hk, hv⟩ := h (k, v) (List.mem_cons_self _ _)
    rw [List.map_cons, runLinesS_cons, processLine_pair hk hv]
    simp only []
    rw [ih _ _ (fun x hx => h x (List.mem_cons_of_mem _ hx))]
    rfl

theorem mapFind_append_last {k : Str} {sub : α} :
    ∀ (dm : List (Str × α)), (∀ d ∈ dm, strLt d.1 k = true) →
      mapFind k (dm ++ [(k, sub)]) = some sub := by
  intro dm
  induction dm with
  | nil => intro _; simp [mapFind]
  | cons d rest ih =>
    intro h
    have hd : strLt d.1 k = true := h d (List.mem_cons_self _ _)
    have hne : k ≠ d.1 := fun he => (strLt_ne hd) he.symm
    obtain ⟨k', v'⟩ := d
    rw [List.cons_append]
    simp only [mapFind, hne, if_neg hne]
    exact ih fun x hx => h x (List.mem_cons_of_mem _ hx)

theorem mapSet_replace_last {k : Str} {v old : α} :
    ∀ (dm : List (Str × α)), (∀ d ∈ dm, strLt d.1 k = true) →
      mapSet k v (dm ++ [(k, old)]) = dm ++ [(k, v)] := by
  intro dm
  induction dm with
  | nil => simp [mapSet, strLt_irrefl]
  | cons d rest ih =>
    intro h
    have hd : strLt d.1 k = true := h d (List.mem_cons_self _ _)
    have h1 : strLt k d.1 = false := strLt_asymm _ _ hd
    have hne : k ≠ d.1 := fun he => (strLt_ne hd) he.symm
    obtain ⟨k', v'⟩ := d
    rw [List.cons_append]
    simp only [mapSet, h1, Bool.false_eq_true, if_false, hne, if_neg hne]
    rw [ih fun x hx => h x (List.mem_cons_of_mem _ hx)]
    rfl

theorem fold_dataSet_last (sect : Str) :
    ∀ (pairs : KVMap) (dm : DataMap) (sub : KVMap),
      (∀ d ∈ dm, strLt d.1 sect = true) →
      (∀ a ∈ sub, ∀ p ∈ pairs, strLt a.1 p.1 = true) →
      List.Pairwise (fun a b => strLt a.1 b.1 = true) pairs →
      pairs.foldl (fun d kv => dataSet sect kv.1 kv.2 d) (dm ++ [(sect, sub)]) =
        dm ++ [(sect, sub ++ pairs)] := by
  intro pairs
  induction pairs with
  | nil => intro dm sub _ _ _; simp
  | cons p rest ih =>
    intro dm sub hdm hsub hpw
    rw [List.pairwise_cons] at hpw
    obtain ⟨hp1, hpw'⟩ := hpw
    rw [List.foldl_cons]
    have hstep : dataSet sect p.1 p.2 (dm ++ [(sect, sub)]) = dm ++ [(sect, sub ++ [p])] := by
      unfold dataSet
      rw [mapFind_append_last dm hdm]
      rw [show (some sub).getD ([] : KVMap) = sub from rfl]
      rw [mapSet_append_of_all_lt sub (fun a ha => hsub a ha p (List.mem_cons_self _ _))]
      exact mapSet_replace_last dm hdm
    rw [hstep]
    rw [ih dm (sub ++ [p]) hdm ?_ hpw']
    · simp
    · intro a ha q hq
      rcases List.mem_append.mp ha with ha | ha
      · exact hsub a ha q (List.mem_cons_of_mem _ hq)
      · rcases ha with _ | ⟨_, ha⟩
        · exact hp1 q hq
        · cases ha

theorem runBlock_named (ign : Bool) {name : Str} {pairs : KVMap}
    (hname : cleanStr name = true) (hnn : name ≠ [])
    (hcl : ∀ p ∈ pairs, cleanStr p.1 = true ∧ cleanStr p.2 = true)
    (hpw : List.Pairwise (fun a b => strLt a.1 b.1 = true) pairs) :
    ∀ (sect : Str) (dm : DataMap) (line : Nat), (∀ d ∈ dm, strLt d.1 name = true) →
    runLinesS ign (blockLines (name, pairs)) sect dm line =
      (none, name, dm ++ [(name, pairs)]) := by
  intro sect dm line hbelow
  rw [show blockLines (name, pairs) = headerLine name :: (pairs.map pairLine ++ [[]]) from by
    unfold blockLines; simp [hnn]]
  rw [runLinesS_cons, processLine_header hname]
  simp only []
  have hens : mapEnsure name ([] : KVMap) dm = dm ++ [(name, [])] := by
    rw [mapEnsure_none (mapFind_none_of_all_lt dm hbelow),
      mapSet_append_of_all_lt dm hbelow]
  rw [hens]
  have hpairs : runLinesS ign (pairs.map pairLine) name (dm ++ [(name, [])]) (line + 1) =
      (none, name, dm ++ [(name, pairs)]) := by
    rw [runLinesS_pairs name ign pairs (dm ++ [(name, [])]) (line + 1) hcl]
    rw [fold_dataSet_last name pairs dm [] hbelow (by intro a ha; cases ha) hpw]
    rw [List.nil_append]
  rw [runLinesS_append_ok ign (pairs.map pairLine) [[]] name (dm ++ [(name, [])]) (line + 1)
    name (dm ++ [(name, pairs)]) hpairs]
  rw [runLinesS_cons, processLine_blank]
  rfl

theorem runBlocks_named (ign : Bool) : ∀ (todo : DataMap),
    cleanDM todo → (∀ s ∈ todo, s.1 ≠ []) →
    mapOrdered todo → (∀ s ∈ todo, List.Pairwise (fun a b => strLt a.1 b.1 = true) s.2) →
    ∀ (sect : Str) (dm : DataMap) (line : Nat),
      (∀ d ∈ dm, ∀ s ∈ todo, strLt d.1 s.1 = true) →
    ∃ sect', runLinesS ign ((todo.map blockLines).flatten) sect dm line =
      (none, sect', dm ++ todo) := by
  intro todo
  induction todo with
  | nil =>
    intro _ _ _ _ sect dm line _
    exact ⟨sect, by simp [runLinesS]⟩
  | cons s rest ih =>
    intro hcl hnn hsort hinner sect dm line hbelow
    obtain ⟨name, pairs⟩ := s
    rw [mapOrdered, List.pairwise_cons] at hsort
    obtain ⟨hsort1, hsort2⟩ := hsort
    rw [List.map_cons, List.flatten_cons]
    have hblock := runBlock_named ign (hcl (name, pairs) (List.mem_cons_self _ _)).1
      (hnn (name, pairs) (List.mem_cons_self _ _))
      (fun p hp => (hcl (name, pairs) (List.mem_cons_self _ _)).2 p hp)
      (hinner (name, pairs) (List.mem_cons_self _ _))
      sect dm line (fun d hd => hbelow d hd (name, pairs) (List.mem_cons_self _ _))
    have hbelow' : ∀ d ∈ dm ++ [(name, pairs)], ∀ t ∈ rest, strLt d.1 t.1 = true := by
      intro d hd t ht
      rcases List.mem_append.mp hd with hd | hd
      · exact hbelow d hd t (List.mem_cons_of_mem _ ht)
      · rcases hd with _ | ⟨_, hd⟩
        · exact hsort1 t ht
        · cases hd
    obtain ⟨sect', hrest⟩ := ih (fun x hx => hcl x (List.mem_cons_of_mem _ hx))
      (fun x hx => hnn x (List.mem_cons_of_mem _ hx)) hsort2
      (fun x hx => hinner x (List.mem_cons_of_mem _ hx))
      name (dm ++ [(name, pairs)]) (line + (blockLines (name, pairs)).length) hbelow'
    refine ⟨sect', ?_⟩
    rw [runLinesS_append_ok ign (blockLines (name, pairs)) _ sect dm line name
      (dm ++ [(name, pairs)]) hblock]
    rw [hrest]
    simp

theorem roundtrip_run {M : DataMap} (hsort : mapOrdered M) (hinner : ∀ s ∈ M, mapOrdered s.2)
    (hcl : cleanDM M) (hdef : ∀ s ∈ M, s.1 = [] → s.2 ≠ []) :
    ∃ s', runLinesS false ((M.map blockLines).flatten) [] [] 1 = (none, s', M) := by
  cases M with
  | nil => exact ⟨[], rfl⟩
  | cons s rest =>
    obtain ⟨name, pairs⟩ := s
    rw [mapOrdered, List.pairwise_cons] at hsort
    obtain ⟨hs1, hs2⟩ := hsort
    by_cases hn : name = []
    · subst hn
      have hpne : pairs ≠ [] := hdef ([], pairs) (List.mem_cons_self _ _) rfl
      cases pairs with
      | nil => exact absurd rfl hpne
      | cons p ps =>
        obtain ⟨k0, v0⟩ := p
        have hinner0 := hinner ([], (k0, v0) :: ps) (List.mem_cons_self _ _)
        rw [mapOrdered, List.pairwise_cons] at hinner0
        obtain ⟨hin1, hin2⟩ := hinner0
        have hclhead := hcl ([], (k0, v0) :: ps) (List.mem_cons_self _ _)
        rw [List.map_cons, List.flatten_cons]
        rw [show blockLines ([], (k0, v0) :: ps) =
          ((k0, v0) :: ps).map pairLine ++ [[]] from by unfold blockLines; simp]
        rw [List.append_assoc]
        have hsub0 : ∀ a ∈ [((k0 : Str), v0)], ∀ q ∈ ps, strLt a.1 q.1 = true := by
          intro a ha q hq
          rcases ha with _ | ⟨_, ha⟩
          · exact hin1 q hq
          · cases ha
        have hfirst : runLinesS false (((k0, v0) :: ps).map pairLine) [] [] 1 =
            (none, [], [(([] : Str), (k0, v0) :: ps)]) := by
          rw [runLinesS_pairs [] false ((k0, v0) :: ps) [] 1 (fun q hq => hclhead.2 q hq)]
          rw [List.foldl_cons]
          rw [show dataSet [] k0 v0 [] = [] ++ [(([] : Str), [(k0, v0)])] from rfl]
          rw [fold_dataSet_last [] ps [] [(k0, v0)] (by intro d hd; cases hd) hsub0 hin2]
          simp
        rw [runLinesS_append_ok false (((k0, v0) :: ps).map pairLine)
          ([[]] ++ (rest.map blockLines).flatten) [] [] 1 []
          [(([] : Str), (k0, v0) :: ps)] hfirst]
        rw [show ([[]] ++ (rest.map blockLines).flatten) =
          ([] : Str) :: (rest.map blockLines).flatten from rfl]
        rw [runLinesS_cons, processLine_blank]
        simp only []
        have hnnrest : ∀ t ∈ rest, t.1 ≠ [] := by
          intro t ht he
          have hlt := hs1 t ht
          rw [he] at hlt
          simp [strLt] at hlt
        have hbelow : ∀ d ∈ [(([] : Str), (k0, v0) :: ps)], ∀ t ∈ rest, strLt d.1 t.1 = true := by
          intro d hd t ht
          rcases hd with _ | ⟨_, hd⟩
          · exact hs1 t ht
          · cases hd
        obtain ⟨s', hrest⟩ := runBlocks_named false rest
          (fun x hx => hcl x (List.mem_cons_of_mem _ hx)) hnnrest hs2
          (fun x hx => hinner x (List.mem_cons_of_mem _ hx))
          [] [(([] : Str), (k0, v0) :: ps)]
          (1 + (((k0, v0) :: ps).map pairLine).length + 1) hbelow
        exact ⟨s', by rw [hrest]; simp⟩
    · have hnnall : ∀ t ∈ (name, pairs) :: rest, t.1 ≠ [] := by
        intro t ht
        rcases ht with _ | ⟨_, ht⟩
        · exact hn
        · intro he
          have hlt := hs1 t ht
          rw [he, strLt_nil_right] at hlt
          cases hlt
      have hsort' : mapOrdered ((name, pairs) :: rest) := by
        rw [mapOrdered, List.pairwise_cons]
        exact ⟨hs1, hs2⟩
      obtain ⟨s', hrun⟩ := runBlocks_named false ((name, pairs) :: rest) hcl hnnall hsort'
        hinner [] [] 1 (by intro d hd; cases hd)
      exact ⟨s', by rw [hrun]; simp⟩

theorem processLine_none_iff (ln : Str) (sect : Str) (dm : DataMap) :
    processLine ln sect dm = none ↔ lineBad ln = true := by
  unfold processLine lineBad
  cases classifyLine ln <;> simp

theorem runLinesS_true_line_irrel : ∀ (lines : List Str) (sect : Str) (dm : DataMap)
    (l1 l2 : Nat), runLinesS true lines sect dm l1 = runLinesS true lines sect dm l2 := by
  intro lines
  induction lines with
  | nil => intro sect dm l1 l2; rfl
  | cons ln rest ih =>
    intro sect dm l1 l2
    rw [runLinesS_cons, runLinesS_cons]
    cases hp : processLine ln sect dm with
    | some sd =>
      simp only []
      exact ih sd.1 sd.2 (l1 + 1) (l2 + 1)
    | none =>
      simp only [if_true]
      exact ih sect dm (l1 + 1) (l2 + 1)

theorem runLinesS_bad_split : ∀ (pre : List Str), (∀ l ∈ pre, lineBad l = false) →
    ∀ (b : Str), lineBad b = true →
    ∀ (post : List Str) (sect : Str) (dm : DataMap) (line : Nat),
    runLinesS false (pre ++ b :: post) sect dm line =
      (some ⟨fmtMsg (line + pre.length), line + pre.length⟩,
        (runLinesS false pre sect dm line).2.1, (runLinesS false pre sect dm line).2.2) := by
  intro pre
  induction pre with
  | nil =>
    intro _ b hb post sect dm line
    rw [List.nil_append, runLinesS_cons, (processLine_none_iff b sect dm).mpr hb]
    simp only []
    rw [if_neg (by simp)]
    simp [runLinesS]
  | cons l pre' ih =>
    intro hpre b hb post sect dm line
    have hl : lineBad l = false := hpre l (List.mem_cons_self _ _)
    rw [List.cons_append, runLinesS_cons, runLinesS_cons]
    cases hp : processLine l sect dm with
    | none => exact absurd ((processLine_none_iff l sect dm).mp hp) (by simp [hl])
    | some sd =>
      simp only []
      rw [ih (fun x hx => hpre x (List.mem_cons_of_mem _ hx)) b hb post sd.1 sd.2 (line + 1)]
      rw [show line + (l :: pre').length = line + 1 + pre'.length from by
        rw [List.length_cons]; omega]

theorem runLinesS_true_skip : ∀ (pre : List Str) (b : Str), lineBad b = true →
    ∀ (post : List Str) (sect : Str) (dm : DataMap) (line : Nat),
    runLinesS true (pre ++ b :: post) sect dm line =
      runLinesS true (pre ++ post) sect dm line := by
  intro pre
  induction pre with
  | nil =>
    intro b hb post sect dm line
    rw [List.nil_append, List.nil_append, runLinesS_cons,
      (processLine_none_iff b sect dm).mpr hb]
    simp only [if_true]
    exact runLinesS_true_line_irrel post sect dm (line + 1) line
  | cons l pre' ih =>
    intro b hb post sect dm line
    rw [List.cons_append, List.cons_append, runLinesS_cons, runLinesS_cons]
    cases hp : processLine l sect dm with
    | some sd =>
      simp only []
      exact ih b hb post sd.1 sd.2 (line + 1)
    | none =>
      simp only [if_true]
      exact ih b hb post sect dm (line + 1)

theorem getStr_eq (dm : DataMap) (sect key dflt : Str) :
    getStr dm sect key dflt =
      match mapFind key ((mapFind sect (mapEnsure sect [] dm)).getD []) with
      | none => (dflt, mapSet sect
          (mapSet key dflt ((mapFind sect (mapEnsure sect [] dm)).getD []))
          (mapEnsure sect [] dm))
      | some v => (v, mapEnsure sect [] dm) := rfl

/-- Claim C8: for every (sect, key, def) with (sect, key) absent from the
mapping, the first `getStr` call inserts the default and returns it, and a
second call with the same arguments returns the default again and leaves the
mapping exactly as the first call left it; `getStr` is total, so it never
fails. -/
theorem getStr_spec (dm : DataMap) (sect key dflt : Str)
    (habs : mapFind key ((mapFind sect dm).getD []) = none) :
    (getStr dm sect key dflt).1 = dflt ∧
    getStr (getStr dm sect key dflt).2 sect key dflt = (dflt, (getStr dm sect key dflt).2) := by
  cases hf : mapFind sect dm with
  | some s =>
    have hdm1 : mapEnsure sect ([] : KVMap) dm = dm := mapEnsure_found hf []
    have hkv : mapFind key s = none := by
      rw [hf] at habs
      exact habs
    have h1 : getStr dm sect key dflt = (dflt, mapSet sect (mapSet key dflt s) dm) := by
      rw [getStr_eq, hdm1, hf]
      rw [show ((some s).getD ([] : KVMap)) = s from rfl, hkv]
    have hf2 : mapFind sect (mapSet sect (mapSet key dflt s) dm) = some (mapSet key dflt s) :=
      mapFind_mapSet_self sect (mapSet key dflt s) dm
    have h2 : getStr (mapSet sect (mapSet key dflt s) dm) sect key dflt =
        (dflt, mapSet sect (mapSet key dflt s) dm) := by
      rw [getStr_eq, mapEnsure_found hf2 [], hf2]
      rw [show ((some (mapSet key dflt s)).getD ([] : KVMap)) = mapSet key dflt s from rfl]
      rw [mapFind_mapSet_self key dflt s]
    rw [h1]
    exact ⟨rfl, h2⟩
  | none =>
    have hdm1 : mapEnsure sect ([] : KVMap) dm = mapSet sect [] dm := mapEnsure_none hf []
    have hf1 : mapFind sect (mapSet sect ([] : KVMap) dm) = some [] :=
      mapFind_mapSet_self sect [] dm
    have h1 : getStr dm sect key dflt =
        (dflt, mapSet sect (mapSet key dflt []) (mapSet sect [] dm)) := by
      rw [getStr_eq, hdm1, hf1]
      rw [show ((some ([] : KVMap)).getD ([] : KVMap)) = ([] : KVMap) from rfl]
      rw [show mapFind key ([] : KVMap) = none from rfl]
    have hf2 : mapFind sect (mapSet sect (mapSet key dflt []) (mapSet sect [] dm)) =
        some (mapSet key dflt []) :=
      mapFind_mapSet_self sect (mapSet key dflt []) (mapSet sect [] dm)
    have h2 : getStr (mapSet sect (mapSet key dflt []) (mapSet sect [] dm)) sect key dflt =
        (dflt, mapSet sect (mapSet key dflt []) (mapSet sect [] dm)) := by
      rw [getStr_eq, mapEnsure_found hf2 [], hf2]
      rw [show ((some (mapSet key dflt ([] : KVMap))).getD ([] : KVMap)) =
        mapSet key dflt ([] : KVMap) from rfl]
      rw [mapFind_mapSet_self key dflt ([] : KVMap)]
    rw [h1]
    exact ⟨rfl, h2⟩

theorem dataMapWF_nil : dataMapWF [] :=
  ⟨List.Pairwise.nil, by intro s hs; cases hs⟩

theorem foldl_setStr_WF : ∀ (ins : List (Str × Str × Str)) (dm : DataMap), dataMapWF dm →
    dataMapWF (ins.foldl (fun d i => setStr d i.1 i.2.1 i.2.2) dm) := by
  intro ins
  induction ins with
  | nil => intro dm h; exact h
  | cons i rest ih =>
    intro dm h
    rw [List.foldl_cons]
    exact ih _ (dataSet_WF h)

theorem applyInserts_WF (ins : List (Str × Str × Str)) : dataMapWF (applyInserts ins) :=
  foldl_setStr_WF ins [] dataMapWF_nil

theorem runLinesS_true_noerr : ∀ (lines : List Str) (sect : Str) (dm : DataMap) (line : Nat),
    (runLinesS true lines sect dm line).1 = none := by
  intro lines
  induction lines with
  | nil => intro sect dm line; rfl
  | cons ln rest ih =>
    intro sect dm line
    rw [runLinesS_cons]
    cases hp : processLine ln sect dm with
    | some sd =>
      simp only []
      exact ih sd.1 sd.2 (line + 1)
    | none =>
      simp only [if_true]
      exact ih sect dm (line + 1)

/-- Claim C1: the spec states that for a line of the form `key = value # comment`
everything from the first `#` onward is stripped, so parsing
`"k = v # comment\n"` stores value exactly `"v"`.  The code calls
`ln.erase(commentPos + 1)` (line 171), which keeps the `#` character itself, and
the spaces before the `#` survive because trailing-space trimming (line 169)
runs before comment handling: the stored value is `"v #"`, not `"v"`. -/
theorem readMore_comment_keeps_hash :
    readIni false (strOf "k = v # comment\n") =
      (none, [(([] : Str), [(strOf "k", strOf "v #")])]) ∧
    strOf "v #" ≠ strOf "v" := by decide

/-- Claim C2, counterexample: the mapping holding only an empty default section
(empty name, no keys) satisfies every restriction of the claim, serializes to a
single blank line, and re-parses to the empty mapping, not to itself. -/
theorem roundtrip_counterexample :
    (readIni false (writeIni [(([] : Str), ([] : KVMap))])).2 ≠
      [(([] : Str), ([] : KVMap))] := by decide

/-- Claim C2 (amended): for every mapping M (sorted at both levels, as a
`std::map` holds its entries) whose section names, keys and values contain none
of `#`, `[`, `]`, `=` and no newline, and have no leading or trailing space or
tab, and in which the empty-named default section, if present, has at least one
key, serializing with `write` and re-parsing with `read` yields exactly M. -/
theorem write_read_roundtrip (M : DataMap)
    (hsort : mapOrdered M) (hinner : ∀ s ∈ M, mapOrdered s.2)
    (hcl : cleanDM M) (hdef : ∀ s ∈ M, s.1 = [] → s.2 ≠ []) :
    readIni false (writeIni M) = (none, M) := by
  obtain ⟨s', hrun⟩ := roundtrip_run hsort hinner hcl hdef
  show ((runLinesS false (getLines (writeIni M)) [] [] 1).1,
        (runLinesS false (getLines (writeIni M)) [] [] 1).2.2) = (none, M)
  rw [getLines_writeIni hcl, hrun]

/-- Witness for claim C2: the amended round-trip theorem applied to a concrete
two-section mapping, every hypothesis checked by evaluation. -/
theorem write_read_roundtrip_witness :
    readIni false (writeIni [(([] : Str), [(strOf "k", strOf "v")]),
      (strOf "A", [(strOf "x", strOf "1")])]) =
      (none, [(([] : Str), [(strOf "k", strOf "v")]),
        (strOf "A", [(strOf "x", strOf "1")])]) :=
  write_read_roundtrip _ (by decide) (by decide) (by decide) (by decide)

/-- Claim C3, counterexample: inserting section `"b"` first and `"a"` second,
`write` emits `[a]` before `[b]` — sorted order, not insertion order. -/
theorem write_not_insertion_order :
    writeIni (applyInserts
      [(strOf "b", strOf "k", strOf "1"), (strOf "a", strOf "k", strOf "2")]) =
      strOf "[a]\nk = 2\n\n[b]\nk = 1\n\n" ∧
    writeIni (applyInserts
      [(strOf "b", strOf "k", strOf "1"), (strOf "a", strOf "k", strOf "2")]) ≠
      strOf "[b]\nk = 1\n\n[a]\nk = 2\n\n" := by decide

/-- Claim C3 (amended): after any sequence of insertions starting from an empty
mapping, `write` emits the sections, and the keys within each section, in
ascending lexicographic order of their names (the `std::map` iteration order),
not in insertion order; for each section it emits a `[name]` header exactly
when the name is non-empty, then one `key = value` line per key, then one blank
line — including after the default section. -/
theorem write_emits_sorted_order (ins : List (Str × Str × Str)) :
    mapOrdered (applyInserts ins) ∧
    (∀ s ∈ applyInserts ins, mapOrdered s.2) ∧
    writeIni (applyInserts ins) =
      ((applyInserts ins).map (fun s =>
        (if s.1 = [] then [] else '[' :: (s.1 ++ [']', '\n'])) ++
          (s.2.map (fun kv => kv.1 ++ (' ' :: '=' :: ' ' :: kv.2) ++ ['\n'])).flatten ++
            ['\n'])).flatten := by
  obtain ⟨h1, h2⟩ := applyInserts_WF ins
  exact ⟨h1, h2, rfl⟩

/-- Claim C4: when the input stream contains a non-empty, non-comment,
non-header line without `=` (after the prefix `pre` of well-formed lines), with
`ignoreErrors = false` the parse stops with a `FormatException` carrying the
1-based number of that line, and with `ignoreErrors = true` only that line is
skipped: the result is exactly the successful parse of the remaining lines.
`lineBad` is the code's throwing condition (line 183): the processed line is
non-empty, does not start with `[`, and contains no `=`. -/
theorem readMore_missing_equals (input : Str) (pre : List Str) (b : Str) (post : List Str)
    (dm : DataMap) (hsplit : getLines input = pre ++ b :: post)
    (hpre : ∀ l ∈ pre, lineBad l = false) (hb : lineBad b = true) :
    (readMoreD false dm input).1 =
      some ⟨fmtMsg (pre.length + 1), pre.length + 1⟩ ∧
    readMoreD true dm input =
      (none, (runLinesS true (pre ++ post) [] dm 1).2.2) := by
  constructor
  · show (runLinesS false (getLines input) [] dm 1).1 = _
    rw [hsplit, runLinesS_bad_split pre hpre b hb post [] dm 1]
    rw [show (1 : Nat) + pre.length = pre.length + 1 from by omega]
  · show ((runLinesS true (getLines input) [] dm 1).1,
      (runLinesS true (getLines input) [] dm 1).2.2) = _
    rw [hsplit, runLinesS_true_skip pre b hb post [] dm 1,
      runLinesS_true_noerr (pre ++ post) [] dm 1]

/-- Witness for claim C4: the spec's own test input, a bad first line followed
by a valid line. -/
theorem readMore_missing_equals_witness :
    (readMoreD false [] (strOf "bad line without equals\nx = 1\n")).1 =
      some ⟨fmtMsg 1, 1⟩ ∧
    readMoreD true [] (strOf "bad line without equals\nx = 1\n") =
      (none, (runLinesS true ([] ++ [strOf "x = 1"]) [] [] 1).2.2) :=
  readMore_missing_equals _ [] (strOf "bad line without equals") [strOf "x = 1"] []
    (by decide) (by decide) (by decide)

/-- Claim C5: `sync` on a failed open raises an error value, and the message of
the unlinked (empty path) case differs from the linked-but-open-failed case.
The code, however, throws a plain `std::runtime_error` (line 249), not the
`FileError` type its own documentation comment (line 239) promises: a handler
catching `FileError` would not catch it.  This theorem records the thrown kind
and the two distinct messages. -/
theorem sync_throws_runtime_error :
    sync ⟨[], false, []⟩ true = some (.runtimeError noLinkMsg) ∧
    sync ⟨strOf "f", false, []⟩ false = some (.runtimeError (cantOpenMsg (strOf "f"))) ∧
    noLinkMsg ≠ cantOpenMsg (strOf "f") ∧
    (∀ m : Str, sync ⟨[], false, []⟩ true ≠ some (.fileError m)) ∧
    (∀ m : Str, sync ⟨strOf "f", false, []⟩ false ≠ some (.fileError m)) := by
  refine ⟨rfl, rfl, by decide, fun m h => ?_, fun m h => ?_⟩
  · rw [show sync ⟨[], false, []⟩ true = some (.runtimeError noLinkMsg) from rfl] at h
    simp at h
  · rw [show sync ⟨strOf "f", false, []⟩ false =
      some (.runtimeError (cantOpenMsg (strOf "f"))) from rfl] at h
    simp at h

/-- Claim C6, counterexample: with a linked path, autoSync on and a failing
open, `close` propagates the sync error and leaves every member unchanged —
the mapping is not cleared, the path not reset, autoSync not reset. -/
theorem close_counterexample :
    (close ⟨strOf "f", true, [(strOf "a", [(strOf "k", strOf "v")])]⟩ false).1.isSome = true ∧
    (close ⟨strOf "f", true, [(strOf "a", [(strOf "k", strOf "v")])]⟩ false).2 =
      ⟨strOf "f", true, [(strOf "a", [(strOf "k", strOf "v")])]⟩ := by decide

/-- Claim C6 (amended): `close` calls `sync` first exactly when a path is
linked and autoSync is enabled, propagating any sync failure to the caller; the
clearing of the mapping, the path and the autoSync flag happens only when no
such failure occurs — on a sync failure the exception aborts `close` before the
clearing statements, leaving the object unchanged. -/
theorem close_spec (ini : MiIni) (ok : Bool) :
    close ini ok =
      (if ini.mFilename.length != 0 && ini.mAutoSync then sync ini ok else none,
       if (ini.mFilename.length != 0 && ini.mAutoSync) && (sync ini ok).isSome then ini
       else clearedIni) := by
  unfold close
  by_cases h : (ini.mFilename.length != 0 && ini.mAutoSync) = true
  · rw [if_pos h]
    cases hs : sync ini ok with
    | some e => simp [h, hs]
    | none => simp [h, hs]
  · have h' : (ini.mFilename.length != 0 && ini.mAutoSync) = false := by
      simpa using h
    simp [h']

/-- Claim C7: the spec says a comment-only line is skipped with no effect and
no error for both values of `ignoreErrors`.  Because the code keeps the `#`
itself (line 171), such a line reduces to `"#"`, which is non-empty, is not a
header, and has no `=`: with `ignoreErrors = false` the parse throws a
`FormatException` at line 1 instead of skipping. -/
theorem comment_only_line_raises :
    readIni false (strOf "# hello\n") = (some ⟨fmtMsg 1, 1⟩, []) ∧
    readIni true (strOf "# hello\n") = (none, []) :=
  ⟨by decide, by decide⟩

/-- Claim C9: when `readMore` with `ignoreErrors = false` throws at the first
bad line, everything parsed from the lines before it is still stored: the data
map at the throw equals the data map produced by parsing the prefix alone —
the parse is not atomic and performs no rollback. -/
theorem readMore_error_keeps_earlier_lines (input : Str) (pre : List Str) (b : Str)
    (post : List Str) (dm : DataMap) (hsplit : getLines input = pre ++ b :: post)
    (hpre : ∀ l ∈ pre, lineBad l = false) (hb : lineBad b = true) :
    (readMoreD false dm input).1.isSome = true ∧
    (readMoreD false dm input).2 = (runLinesS false pre [] dm 1).2.2 := by
  have hmain : runLinesS false (getLines input) [] dm 1 =
      (some ⟨fmtMsg (1 + pre.length), 1 + pre.length⟩,
        (runLinesS false pre [] dm 1).2.1, (runLinesS false pre [] dm 1).2.2) := by
    rw [hsplit]
    exact runLinesS_bad_split pre hpre b hb post [] dm 1
  show ((runLinesS false (getLines input) [] dm 1).1.isSome = true ∧
    (runLinesS false (getLines input) [] dm 1).2.2 = (runLinesS false pre [] dm 1).2.2)
  rw [hmain]
  exact ⟨rfl, rfl⟩

/-- Witness for claim C9: a header and a key line are parsed, the third line
throws, and the stored mapping equals the one obtained from the first two
lines alone. -/
theorem readMore_error_keeps_earlier_lines_witness :
    (readMoreD false [] (strOf "[A]\nx = 1\nbadline\ny = 2\n")).1.isSome = true ∧
    (readMoreD false [] (strOf "[A]\nx = 1\nbadline\ny = 2\n")).2 =
      (runLinesS false [strOf "[A]", strOf "x = 1"] [] [] 1).2.2 :=
  readMore_error_keeps_earlier_lines _ [strOf "[A]", strOf "x = 1"] (strOf "badline")
    [strOf "y = 2"] [] (by decide) (by decide) (by decide)

/-- Witness for claim C8: an absent (section, key) on the empty mapping. -/
theorem getStr_spec_witness :
    (getStr [] (strOf "s") (strOf "k") (strOf "v")).1 = strOf "v" ∧
    getStr (getStr [] (strOf "s") (strOf "k") (strOf "v")).2 (strOf "s") (strOf "k")
      (strOf "v") = (strOf "v", (getStr [] (strOf "s") (strOf "k") (strOf "v")).2) :=
  getStr_spec [] (strOf "s") (strOf "k") (strOf "v") (by decide)

/-- Claim C10: every call to `readMore` starts with the local current section
reset to the default empty-named section (line 157), so a key/value line at the
start of a second merged source is stored in the default section no matter
where a previous `readMore` ended — here `prev` is an arbitrary earlier input,
and the merged line `"k = v"` lands in the section with the empty name. -/
theorem readMore_starts_default_section (ign : Bool) (dm0 : DataMap) (prev : Str) :
    readMoreD ign ((readMoreD ign dm0 prev).2) (strOf "k = v") =
      (none, dataSet [] (strOf "k") (strOf "v") ((readMoreD ign dm0 prev).2)) := rfl

end Ini
